import Mathlib

/-!
Verification development for the belts solver
(`part2_assignment/belts/main.py`): a deterministic bounded-flow solver
with node caps and lower bounds, built on a float Dinic max-flow.

The Python code is shallowly embedded here: floats become exact rationals
(`ℚ`), the mutable adjacency structure becomes a `List (List DEdge)`
threaded through the functions, and the unbounded `while` loops of the
Dinic engine take an explicit fuel parameter, returning `none` exactly
when the fuel runs out.  Every definition mirrors the corresponding
Python function line by line.
-/

/- Batteries marks the `Rat` field operations `@[irreducible]`; the concrete
runs below evaluate them inside `decide`, so restore the default
reducibility of their (perfectly computable) definitions. -/
set_option allowUnsafeReducibility true in
attribute [semireducible] Rat.add Rat.sub Rat.mul Rat.neg Rat.div Rat.inv

namespace Belts

/-- Lexicographic code-point order on identifiers, the order Python uses
for `sorted` on strings (stated on the underlying character lists so that
it evaluates by kernel reduction). -/
def sLe (a b : String) : Prop := a.data ≤ b.data

/-- Strict part of `sLe`. -/
def sLt (a b : String) : Prop := a.data < b.data

instance : DecidableRel sLe := fun a b => by unfold sLe; infer_instance

instance : DecidableRel sLt := fun a b => by unfold sLt; infer_instance

/-- Constant `EPS = 1e-9`, the algorithmic tolerance from the source. -/
def EPS : ℚ := 1 / 1000000000

/-- Constant `INF = 1e18`, the unbounded-capacity sentinel from the source. -/
def INF : ℚ := 1000000000000000000

/-- Constant `TOL = 1e-6`, the saturation/report threshold used by the certificate stage. -/
def TOL : ℚ := 1 / 1000000

/-- Residual edge, mirroring `Dinic.Edge`: `(to, rev, cap, flow)`,
with `cap` fixed at construction and `flow` mutable.  The Python field
`to` is spelled `toN` here, as `to` is a reserved token in Lean. -/
structure DEdge where
  toN : Nat
  rev : Nat
  cap : ℚ
  flow : ℚ
deriving DecidableEq, Repr

instance : Inhabited DEdge := ⟨⟨0, 0, 0, 0⟩⟩

/-- Default edge used for out-of-range reads (never hit on built graphs). -/
def dfltE : DEdge := ⟨0, 0, 0, 0⟩

/-- The residual graph: adjacency lists, mirroring `Dinic.adj`. -/
def Graph : Type := List (List DEdge)

instance : DecidableEq Graph := inferInstanceAs (DecidableEq (List (List DEdge)))

/-- Constructor `Dinic.__init__(n)`: `n` empty adjacency lists. -/
def mkGraph (n : Nat) : Graph := List.replicate n []

/-- Adjacency list of vertex `u` (`self.adj[u]`). -/
def adjOf (g : Graph) (u : Nat) : List DEdge := List.getD g u []

/-- Number of vertices (`self.n`). -/
def nV (g : Graph) : Nat := List.length g

/-- Method `Dinic.add_edge(u, v, cap)`: append the forward edge to `adj[u]` and the
zero-capacity reverse edge to `adj[v]`; the reverse handles are the indices
computed before the appends, exactly as in the source. -/
def add_edge (g : Graph) (u v : Nat) (cap : ℚ) : Graph :=
  let a : DEdge := ⟨v, (adjOf g v).length, cap, 0⟩
  let b : DEdge := ⟨u, (adjOf g u).length, 0, 0⟩
  let g1 := List.set g u (adjOf g u ++ [a])
  List.set g1 v (adjOf g1 v ++ [b])

/-- Overwrite the flow of the edge at slot `(u, i)`. -/
def setFlowAt (g : Graph) (u i : Nat) (q : ℚ) : Graph :=
  let l := adjOf g u
  let e := l.getD i dfltE
  List.set g u (l.set i { e with flow := q })

/-- Update `e.flow += δ; adj[e.toN][e.rev].flow -= δ` for the edge at `(u, i)`. -/
def push_pair (g : Graph) (u i : Nat) (d : ℚ) : Graph :=
  let e := (adjOf g u).getD i dfltE
  let g1 := setFlowAt g u i (((adjOf g u).getD i dfltE).flow + d)
  setFlowAt g1 e.toN e.rev (((adjOf g1 e.toN).getD e.rev dfltE).flow - d)

/-- One BFS round of `Dinic.bfs_level`: pop the queue head, relax its
residual edges (`cap - flow > EPS`), enqueue newly levelled vertices.
The fuel bounds the number of pops; each pop follows an enqueue and each
enqueue levels a previously unlevelled vertex, so `nV g + 1` always
suffices. -/
def bfs_loop (g : Graph) : Nat → List Nat → List Int → List Int
  | 0, _, level => level
  | _ + 1, [], level => level
  | fuel + 1, u :: rest, level =>
    let step := (adjOf g u).foldl
      (fun (p : List Int × List Nat) e =>
        if p.1.getD e.toN (-1) < 0 ∧ EPS < e.cap - e.flow then
          (p.1.set e.toN (p.1.getD u (-1) + 1), p.2 ++ [e.toN])
        else p)
      (level, [])
    bfs_loop g fuel (rest ++ step.2) step.1

/-- Method `Dinic.bfs_level(s, t)` (the source ignores `t` except through the
caller's `level[t]` read): levels are `-1` except `level[s] = 0`, then BFS. -/
def bfs_level (g : Graph) (s : Nat) : List Int :=
  bfs_loop g (nV g + 1) [s] ((List.replicate (nV g) (-1 : Int)).set s 0)

mutual

/-- Method `Dinic.dfs_flow(u, t, pushed, level, it)`.  Fuel-indexed; `none` means
the fuel ran out (the Python recursion is unbounded only through the
level structure). -/
def dfs_flow : Nat → Graph → Nat → Nat → ℚ → List Int → List Nat →
    Option (ℚ × Graph × List Nat)
  | 0, _, _, _, _, _, _ => none
  | fuel + 1, g, t, u, pushed, level, it =>
    if u = t then some (pushed, g, it)
    else dfs_scan fuel g t u pushed level it (it.getD u 0)
termination_by structural fuel => fuel

/-- The `while i < len(adj_u)` scanning loop of `dfs_flow`, with the cursor
`i` explicit and the per-vertex resume array `it` threaded through. -/
def dfs_scan : Nat → Graph → Nat → Nat → ℚ → List Int → List Nat → Nat →
    Option (ℚ × Graph × List Nat)
  | 0, _, _, _, _, _, _, _ => none
  | fuel + 1, g, t, u, pushed, level, it, i =>
    if i < (adjOf g u).length then
      let e := (adjOf g u).getD i dfltE
      if EPS < e.cap - e.flow ∧ level.getD e.toN (-1) = level.getD u (-1) + 1 then
        match dfs_flow fuel g t e.toN (min pushed (e.cap - e.flow)) level it with
        | none => none
        | some (toPush, g1, it1) =>
          if EPS < toPush then
            some (toPush, push_pair g1 u i toPush, it1.set u i)
          else dfs_scan fuel g1 t u pushed level (it1.set u (i + 1)) (i + 1)
      else dfs_scan fuel g t u pushed level (it.set u (i + 1)) (i + 1)
    else some (0, g, it)
termination_by structural fuel => fuel

end

/-- The inner `while True` of `Dinic.max_flow`: repeat `dfs_flow` within one
level assignment.  Returns `(flow, graph, stop)`; `stop = true` mirrors the
early `return flow` when `flow + EPS >= limit`. -/
def mf_inner : Nat → Graph → Nat → Nat → ℚ → List Int → List Nat → ℚ →
    Option (ℚ × Graph × Bool)
  | 0, _, _, _, _, _, _, _ => none
  | fuel + 1, g, s, t, limit, level, it, flow =>
    match dfs_flow fuel g t s (limit - flow) level it with
    | none => none
    | some (pushed, g1, it1) =>
      if pushed ≤ EPS then some (flow, g1, false)
      else if limit ≤ flow + pushed + EPS then some (flow + pushed, g1, true)
      else mf_inner fuel g1 s t limit level it1 (flow + pushed)

/-- The outer `while True` of `Dinic.max_flow`: recompute levels, stop when
the sink is unlevelled, otherwise run the blocking-flow inner loop with
fresh resume pointers. -/
def mf_outer : Nat → Graph → Nat → Nat → ℚ → ℚ → Option (ℚ × Graph)
  | 0, _, _, _, _, _ => none
  | fuel + 1, g, s, t, limit, flow =>
    let level := bfs_level g s
    if level.getD t (-1) < 0 then some (flow, g)
    else
      match mf_inner fuel g s t limit level (List.replicate (nV g) 0) flow with
      | none => none
      | some (flow1, g1, stop) =>
        if stop then some (flow1, g1) else mf_outer fuel g1 s t limit flow1

/-- Method `Dinic.max_flow(s, t, limit)`; returns the flow value and final graph. -/
def max_flow (fuel : Nat) (g : Graph) (s t : Nat) (limit : ℚ) :
    Option (ℚ × Graph) :=
  mf_outer fuel g s t limit 0

/-- One round of `Dinic.reachable_from`: pop, mark and enqueue unvisited
heads of residual edges.  Fuel sized like `bfs_loop`. -/
def reach_loop (g : Graph) : Nat → List Nat → List Bool → List Bool
  | 0, _, vis => vis
  | _ + 1, [], vis => vis
  | fuel + 1, u :: rest, vis =>
    let step := (adjOf g u).foldl
      (fun (p : List Bool × List Nat) e =>
        if ¬ p.1.getD e.toN false ∧ EPS < e.cap - e.flow then
          (p.1.set e.toN true, p.2 ++ [e.toN])
        else p)
      (vis, [])
    reach_loop g fuel (rest ++ step.2) step.1

/-- Method `Dinic.reachable_from(s)`: the residual-reachable set as a Bool list. -/
def reachable_from (g : Graph) (s : Nat) : List Bool :=
  reach_loop g (nV g + 1) [s] ((List.replicate (nV g) false).set s true)

/-! ## The `run_belts` builder -/

/-- A user-level edge record `{from, to, lo, hi}` of the input (the Python
keys `from`/`to` are `src`/`dst` here, both being reserved words in Lean). -/
structure EdgeIn where
  src : String
  dst : String
  lo : ℚ
  hi : ℚ
deriving DecidableEq, Repr

/-- An `edge_map` entry: the user edge together with the residual-graph
indices of its `from.out` / `to.in` endpoints. -/
structure ERec where
  src : String
  dst : String
  lo : ℚ
  hi : ℚ
  uOut : Nat
  vIn : Nat
deriving DecidableEq, Repr

/-- One `{"from": ..., "to": ..., "flow": ...}` record of a feasible answer. -/
structure FlowRec where
  src : String
  dst : String
  flow : ℚ
deriving DecidableEq, Repr

/-- One `{"from": ..., "to": ..., "flow_needed": ...}` certificate record. -/
structure TightRec where
  src : String
  dst : String
  flowNeeded : ℚ
deriving DecidableEq, Repr

/-- The structured result object produced by `run_belts`. -/
inductive Result where
  | error (message : String)
  | ok (maxFlowPerMin : ℚ) (flows : List FlowRec)
  | infeasible (cutReachable : List String) (demandBalance : ℚ)
      (tightNodes : List String) (tightEdges : List TightRec)
deriving DecidableEq, Repr

/-- The parsed request handed to `run_belts` (JSON parsing is out of scope;
`sources` and `node_caps` model the Python dicts as association lists). -/
structure BeltInput where
  nodes : List String
  edges : List EdgeIn
  sources : List (String × ℚ)
  sink : Option String
  node_caps : List (String × ℚ)

/-- Python-dict lookup on an association list (later bindings win, as in
`dict(...)` construction). -/
def alook (l : List (String × ℚ)) (k : String) : Option ℚ :=
  (l.reverse.find? (fun p => p.1 == k)).map (fun p => p.2)

/-- Python `sorted(set(l))`: lexicographically sorted list of the distinct names. -/
def sortUniq (l : List String) : List String :=
  List.insertionSort sLe l.dedup

/-- The deterministic `edge_sort_key`: `(from, to, lo, hi)` lexicographically. -/
def edge_key_le (a b : EdgeIn) : Prop :=
  sLt a.src b.src ∨ (a.src = b.src ∧ (sLt a.dst b.dst ∨ (a.dst = b.dst ∧
    (a.lo < b.lo ∨ (a.lo = b.lo ∧ a.hi ≤ b.hi)))))

instance : DecidableRel edge_key_le := fun a b => by
  unfold edge_key_le; infer_instance

/-- The key used by the final `sorted(edge_map, key=(from, to))`. -/
def pair_le (a b : ERec) : Prop :=
  sLt a.src b.src ∨ (a.src = b.src ∧ sLe a.dst b.dst)

instance : DecidableRel pair_le := fun a b => by
  unfold pair_le; infer_instance

/-- Pointwise update of the `demand` defaultdict. -/
def updQ (d : String → ℚ) (k : String) (x : ℚ) : String → ℚ :=
  fun v => if v = k then x else d v

/-- Lookup `orig_to_indices[v][0]`: the node-in vertex of `v` (nodes indexed in
sorted order, two residual vertices each). -/
def in_index (ns : List String) (v : String) : Nat := 2 * ns.indexOf v

/-- Lookup `orig_to_indices[v][1]`: the node-out vertex of `v`. -/
def out_index (ns : List String) (v : String) : Nat := 2 * ns.indexOf v + 1

/-- Expression `float(node_caps.get(v, INF)) if v in node_caps else INF`. -/
def capOf (caps : List (String × ℚ)) (v : String) : ℚ :=
  (alook caps v).getD INF

/-- The user-edge residual capacity `max(0.0, hi - lo)`. -/
def userCap (e : EdgeIn) : ℚ := max 0 (e.hi - e.lo)

/-- The loop over sorted user edges: reject `hi + EPS < lo` with the
source's message, otherwise add the residual edge of capacity
`max(0, hi - lo)` from `from.out` to `to.in`, record it in `edge_map`, and
apply the lower-bound demand adjustments. -/
def build_edges (inI outI : String → Nat) :
    List EdgeIn → Graph → List ERec → (String → ℚ) →
    Except String (Graph × List ERec × (String → ℚ))
  | [], g, em, dem => .ok (g, em, dem)
  | e :: rest, g, em, dem =>
    if e.hi + EPS < e.lo then
      .error ("edge hi < lo for " ++ e.src ++ "->" ++ e.dst)
    else
      let uo := outI e.src
      let vi := inI e.dst
      let g1 := add_edge g uo vi (userCap e)
      let dem1 := updQ dem e.src (dem e.src - e.lo)
      let dem2 := updQ dem1 e.dst (dem1 e.dst + e.lo)
      build_edges inI outI rest g1 (em ++ [⟨e.src, e.dst, e.lo, e.hi, uo, vi⟩]) dem2

/-- Value `total_supply`: fixed supplies summed over the sorted source names. -/
def total_supply_of (sources : List (String × ℚ)) : ℚ :=
  (sortUniq (sources.map Prod.fst)).foldl
    (fun acc s => acc + ((alook sources s).getD 0)) 0

/-- The graph with the per-node `v_in -> v_out` capacity edges, added in
sorted node order before any user edge. -/
def base_graph (ns : List String) (caps : List (String × ℚ)) : Graph :=
  ns.foldl (fun g v => add_edge g (in_index ns v) (out_index ns v) (capOf caps v))
    (mkGraph (2 * ns.length + 2))

/-- The certificate stage's `tight_nodes`: reachable nodes whose internal
`v_in -> v_out` edge (the first adjacency entry of `v_in`) is saturated. -/
def tight_nodes_of (ns : List String) (g : Graph) (reach : List Bool) :
    List String :=
  ns.filter (fun v =>
    let vi := in_index ns v
    decide (0 < (adjOf g vi).length) && reach.getD vi false &&
      decide (|((adjOf g vi).getD 0 dfltE).cap - ((adjOf g vi).getD 0 dfltE).flow| ≤ TOL))

/-- The certificate stage's `tight_edges`: user edges crossing from the
reachable set to its complement whose first matching residual edge is
saturated, with the `flow_needed` heuristic. -/
def tight_edges_of (em : List ERec) (g : Graph) (reach : List Bool) (dB : ℚ) :
    List TightRec :=
  em.foldl (fun acc rec =>
    if reach.getD rec.uOut false ∧ ¬ reach.getD rec.vIn false then
      match (adjOf g rec.uOut).find? (fun e => e.toN == rec.vIn) with
      | some e =>
        if e.cap - e.flow ≤ TOL then
          acc ++ [⟨rec.src, rec.dst, min dB (max 0 (rec.hi - rec.lo))⟩]
        else acc
      | none => acc
    else acc) []

/-- The feasible stage's flow reconstruction for one `edge_map` record:
first residual edge of `from.out` ending at `to.in`, plus the lower
bound, clamped at zero. -/
def flow_rec_of (g : Graph) (rec : ERec) : FlowRec :=
  let f := match (adjOf g rec.uOut).find? (fun e => e.toN == rec.vIn) with
    | some e => e.flow
    | none => 0
  ⟨rec.src, rec.dst, max 0 (f + rec.lo)⟩

/-- Core of `run_belts` after node collection and edge sorting: build the split
graph, apply the lower-bound/supply demand transform, run the Dinic engine
from the super-source, and produce the feasible answer or the
infeasibility certificate.  `ns` is the sorted node list and `es` the
sorted edge list. -/
def run_belts_core (fuel : Nat) (ns : List String) (es : List EdgeIn)
    (sources : List (String × ℚ)) (sink : String)
    (node_caps : List (String × ℚ)) : Option Result :=
  let n := ns.length
  let sstar := 2 * n
  let tstar := 2 * n + 1
  match build_edges (in_index ns) (out_index ns) es (base_graph ns node_caps)
      [] (fun _ => 0) with
  | .error msg => some (.error msg)
  | .ok (g2, edge_map, dem0) =>
    let total_supply := total_supply_of sources
    let dem1 := (sortUniq (sources.map Prod.fst)).foldl
      (fun d s => updQ d s (d s - ((alook sources s).getD 0))) dem0
    let dem := updQ dem1 sink (dem1 sink + total_supply)
    let gp := ns.foldl (fun (p : Graph × ℚ) v =>
      let d := dem v
      if EPS < d then (add_edge p.1 sstar (in_index ns v) d, p.2 + d)
      else if d < -EPS then (add_edge p.1 (out_index ns v) tstar (-d), p.2)
      else p) (g2, 0)
    match max_flow fuel gp.1 sstar tstar INF with
    | none => none
    | some (flowed, g4) =>
      if flowed + EPS < gp.2 then
        let reach := reachable_from g4 sstar
        let cut := ns.filter (fun v => reach.getD (in_index ns v) false)
        let dB := gp.2 - flowed
        some (.infeasible cut dB
          (List.insertionSort sLe (tight_nodes_of ns g4 reach))
          (tight_edges_of edge_map g4 reach dB))
      else
        some (.ok total_supply
          ((List.insertionSort pair_le edge_map).map (flow_rec_of g4)))

/-- Entry point `run_belts(data)`: validate the sink, build the deterministic sorted
node set (explicit nodes, edge endpoints, source names, sink) and the
deterministically sorted edge list, and hand off to the core.  The fuel
feeds only the Dinic engine; `none` models a run whose `while` loops have
not yet finished within that fuel. -/
def run_belts (fuel : Nat) (input : BeltInput) : Option Result :=
  match input.sink with
  | none => some (.error "sink not specified")
  | some sink =>
    run_belts_core fuel
      (sortUniq (input.nodes ++ input.edges.map (fun e => e.src) ++
        input.edges.map (fun e => e.dst) ++ input.sources.map Prod.fst ++ [sink]))
      (List.insertionSort edge_key_le input.edges)
      input.sources sink input.node_caps

/-! ## Concrete runs -/

/-- The repository's own sample network (`test_belts_sample_ok` /
`run_samples.py`): `s1` (900) and `s2` (600) feed `sink` through two
parallel paths of headroom well above 1500. -/
def sampleOK : BeltInput :=
  { nodes := ["s1", "s2", "a", "b", "c", "sink"]
    edges := [⟨"s1", "a", 0, 1000⟩, ⟨"s2", "a", 0, 1000⟩, ⟨"a", "b", 0, 1000⟩,
              ⟨"b", "sink", 0, 900⟩, ⟨"a", "c", 0, 1000⟩, ⟨"c", "sink", 0, 600⟩]
    sources := [("s1", 900), ("s2", 600)]
    sink := some "sink"
    node_caps := [] }

/-- The repository's `test_belts_infeasible_due_to_node_cap` network:
node `a` capped at 500 between supplies of 1500. -/
def capInfeasible : BeltInput :=
  { nodes := ["s1", "s2", "a", "sink"]
    edges := [⟨"s1", "a", 0, 1000⟩, ⟨"s2", "a", 0, 1000⟩, ⟨"a", "sink", 0, 1000⟩]
    sources := [("s1", 900), ("s2", 600)]
    sink := some "sink"
    node_caps := [("a", 500)] }

/-- A network with two parallel `a -> b` edges (bounds `[0,100]` and
`[5,6]`) and forced edges `b -> z` and `z -> a` of bounds `[9,9]`, no
sources, sink `z`.  The demand transform is satisfied by routing 4 units
through the `[0,100]` copy of `a -> b`, so the solver answers `ok`. -/
def parInput : BeltInput :=
  { nodes := []
    edges := [⟨"a", "b", 0, 100⟩, ⟨"a", "b", 5, 6⟩, ⟨"b", "z", 9, 9⟩,
              ⟨"z", "a", 9, 9⟩]
    sources := []
    sink := some "z"
    node_caps := [] }

/-- The flows `run_belts` reconstructs for `parInput`, listed in the sorted
`edge_map` order `(a,b,0,100), (a,b,5,6), (b,z,9,9), (z,a,9,9)`. -/
def parFlows : List FlowRec :=
  [⟨"a", "b", 4⟩, ⟨"a", "b", 9⟩, ⟨"b", "z", 9⟩, ⟨"z", "a", 9⟩]

/-- Total reported flow into node `v`. -/
def sum_into (l : List FlowRec) (v : String) : ℚ :=
  l.foldl (fun acc f => if f.dst = v then acc + f.flow else acc) 0

/-- Total reported flow out of node `v`. -/
def sum_out_of (l : List FlowRec) (v : String) : ℚ :=
  l.foldl (fun acc f => if f.src = v then acc + f.flow else acc) 0

/-! ## The residual pair invariant -/

/-- The edge stored at slot `(u, i)` of the adjacency structure. -/
def edgeAt (g : Graph) (u i : Nat) : DEdge := (adjOf g u).getD i dfltE

/-- The paired (reverse) edge of slot `(u, i)`. -/
def pairAt (g : Graph) (u i : Nat) : DEdge :=
  edgeAt g (edgeAt g u i).toN (edgeAt g u i).rev

/-- Well-formed pairing: every slot's reverse handle is in range and points
back to the slot, as arranged by `add_edge`. -/
def pairWF (g : Graph) : Prop :=
  ∀ u i, u < nV g → i < (adjOf g u).length →
    (edgeAt g u i).toN < nV g ∧
    (edgeAt g u i).rev < (adjOf g (edgeAt g u i).toN).length ∧
    (pairAt g u i).toN = u ∧ (pairAt g u i).rev = i

/-- Flow bounds on every slot: paired flows cancel, and each flow lies
between `-cap(reverse)` and `cap`; for a forward edge (whose reverse has
capacity `0`) this is exactly `0 ≤ flow ≤ cap`. -/
def flowInv (g : Graph) : Prop :=
  ∀ u i, u < nV g → i < (adjOf g u).length →
    (edgeAt g u i).flow + (pairAt g u i).flow = 0 ∧
    -(pairAt g u i).cap ≤ (edgeAt g u i).flow ∧
    (edgeAt g u i).flow ≤ (edgeAt g u i).cap

/-- The full residual invariant. -/
def graphInv (g : Graph) : Prop := pairWF g ∧ flowInv g

/-- Two graphs with the same vertices, adjacency lengths and static edge
fields (`to`, `rev`, `cap`); the engine only ever changes `flow`. -/
def sameShape (g h : Graph) : Prop :=
  nV g = nV h ∧ ∀ u, (adjOf g u).length = (adjOf h u).length ∧
    ∀ i, (edgeAt g u i).toN = (edgeAt h u i).toN ∧
      (edgeAt g u i).rev = (edgeAt h u i).rev ∧
      (edgeAt g u i).cap = (edgeAt h u i).cap

/-- Shorthand for the level of a vertex (`level[x]`, default `-1`). -/
def lvlD (level : List Int) (x : Nat) : Int := level.getD x (-1)

/-- Which slots a DFS started at `u` may touch: a changed slot is either a
forward edge pushed from a vertex at level `≥ level[u]` into the next
level, or the paired reverse of one (one level higher, pointing back).
This is what protects the edge being pushed at `u` from interference by
the recursive call below it. -/
def ChangedOK (g g1 : Graph) (level : List Int) (u : Nat) : Prop :=
  ∀ x j, x < nV g → j < (adjOf g x).length →
    (edgeAt g1 x j).flow ≠ (edgeAt g x j).flow →
    (lvlD level u ≤ lvlD level x ∧
      lvlD level (edgeAt g x j).toN = lvlD level x + 1) ∨
    (lvlD level u + 1 ≤ lvlD level x ∧
      lvlD level (edgeAt g x j).toN = lvlD level x - 1)

/-- Predicate: `Dinic.max_flow(s, t, limit)` terminates, i.e. some fuel completes the run. -/
def max_flow_terminates (g : Graph) (s t : Nat) (limit : ℚ) : Prop :=
  ∃ fuel, (max_flow fuel g s t limit).isSome

/-- The one-edge residual graph `0 -> 1` of capacity 1, exactly what
`add_edge (mkGraph 2) 0 1 1` builds. -/
def g8 : Graph := [[⟨1, 0, 1, 0⟩], [⟨0, 0, 0, 0⟩]]

/-- C1: on the repository's own sample network the solver does NOT return
`status "ok"` with `max_flow_per_min = 1500`: the demand transform debits
supplies from the sources (`demand[s] -= supply`) and credits the sink,
so the super-source is wired to the sink side, no augmenting path exists,
and the code answers `infeasible` with deficit 1500 — contradicting
`test_belts_sample_ok`. -/
theorem run_belts_sample_is_infeasible :
    run_belts 100 sampleOK = some (.infeasible ["sink"] 1500 [] []) := by
  decide

/-- C2: on the repository's own node-cap test the certificate violates the
claim: `cut_reachable = ["sink"]` contains the sink and contains neither
source, and `tight_nodes`/`tight_edges` are empty (the test expects `a`
in one of them). -/
theorem run_belts_node_cap_certificate :
    run_belts 100 capInfeasible = some (.infeasible ["sink"] 1500 [] []) ∧
    "sink" ∈ (["sink"] : List String) ∧
    "s1" ∉ (["sink"] : List String) ∧ "s2" ∉ (["sink"] : List String) ∧
    capInfeasible.sources.map Prod.fst = ["s1", "s2"] := by
  decide

set_option maxHeartbeats 1600000 in
/-- C5: with two parallel `a -> b` edges the reconstruction reads the flow
of the *first* residual edge from `a.out` to `b.in` for both records, so
the `[5,6]`-bounded edge is reported with flow `4 + 5 = 9 > 6`: a returned
edge flow outside `[lo, hi]` on a run that answers `"ok"`. -/
theorem run_belts_parallel_flow_exceeds_hi :
    run_belts 50 parInput = some (.ok 0 parFlows) ∧
    parFlows.getD 1 ⟨"", "", 0⟩ = ⟨"a", "b", 9⟩ ∧
    (List.insertionSort edge_key_le parInput.edges).getD 1 ⟨"", "", 0, 0⟩ =
      ⟨"a", "b", 5, 6⟩ ∧
    ¬ ((9 : ℚ) ≤ 6 + TOL) := by
  decide

set_option maxHeartbeats 1600000 in
/-- C7: on the same `"ok"` run the reported flows do not conserve at the
intermediate node `b` (neither a source nor the sink): inbound `4 + 9 = 13`
against outbound `9`. -/
theorem run_belts_parallel_nonconservation :
    run_belts 50 parInput = some (.ok 0 parFlows) ∧
    sum_into parFlows "b" = 13 ∧ sum_out_of parFlows "b" = 9 ∧
    parInput.sources = [] ∧ parInput.sink = some "z" ∧
    ¬ (|(13 : ℚ) - 9| ≤ TOL) := by
  decide

set_option maxHeartbeats 1600000 in
/-- C9 counterexample: after one push on a single edge of capacity 5, the
paired reverse edge carries flow `-5`, far below `0` even within the
`EPS` tolerance — so "every residual edge (including the paired reverse
edges) satisfies `0 ≤ flow` within tolerance" fails on the code. -/
theorem reverse_edge_flow_negative :
    max_flow 50 (add_edge (mkGraph 2) 0 1 5) 0 1 INF =
      some (5, [[⟨1, 0, 5, 5⟩], [⟨0, 0, 0, -5⟩]]) ∧
    ((-5 : ℚ) < 0 - EPS) := by
  decide

/-- C10 counterexample: a declared node cap is copied unchecked into the
internal `v_in -> v_out` capacity edge, so a negative `node_caps` entry
produces a residual edge with negative capacity. -/
theorem negative_node_cap_residual_edge :
    (adjOf (base_graph ["a", "t"] [("a", -5)]) 0).getD 0 dfltE =
      ⟨1, 0, -5, 0⟩ ∧ ((-5 : ℚ) < 0) := by
  decide

/-! ## Validation and the error status -/

/-- If the edge loop reports an error, some processed edge has
`hi + EPS < lo` and the message names that edge's endpoints. -/
lemma build_edges_error_spec (inI outI : String → Nat) :
    ∀ (ds : List EdgeIn) (g : Graph) (em : List ERec) (dem : String → ℚ)
      (msg : String),
      build_edges inI outI ds g em dem = .error msg →
      ∃ e ∈ ds, e.hi + EPS < e.lo ∧
        msg = "edge hi < lo for " ++ e.src ++ "->" ++ e.dst := by
  intro ds
  induction ds with
  | nil => intro g em dem msg h; simp [build_edges] at h
  | cons e rest ih =>
    intro g em dem msg h
    by_cases hb : e.hi + EPS < e.lo
    · simp only [build_edges, if_pos hb, Except.error.injEq] at h
      exact ⟨e, List.mem_cons_self e rest, hb, h.symm⟩
    · simp only [build_edges, if_neg hb] at h
      obtain ⟨e1, he1, hbad, hmsg⟩ := ih _ _ _ _ h
      exact ⟨e1, List.mem_cons_of_mem e he1, hbad, hmsg⟩

/-- Conversely, a bad edge in the list forces the edge loop to error. -/
lemma build_edges_error_exists (inI outI : String → Nat) :
    ∀ (ds : List EdgeIn) (g : Graph) (em : List ERec) (dem : String → ℚ),
      (∃ e ∈ ds, e.hi + EPS < e.lo) →
      ∃ msg, build_edges inI outI ds g em dem = .error msg := by
  intro ds
  induction ds with
  | nil => intro g em dem h; simp at h
  | cons e rest ih =>
    intro g em dem h
    by_cases hb : e.hi + EPS < e.lo
    · exact ⟨"edge hi < lo for " ++ e.src ++ "->" ++ e.dst,
        by simp [build_edges, if_pos hb]⟩
    · obtain ⟨e1, he1, hbad⟩ := h
      rcases List.mem_cons.mp he1 with rfl | htail
      · exact absurd hbad hb
      · simpa [build_edges, if_neg hb] using ih _ _ _ ⟨e1, htail, hbad⟩

/-- The solver core reports `error` exactly when the edge loop rejects an
edge; the stages after a successful build only produce `ok`/`infeasible`. -/
lemma run_belts_core_error_iff (fuel : Nat) (ns : List String)
    (es : List EdgeIn) (srcs : List (String × ℚ)) (sink : String)
    (caps : List (String × ℚ)) (msg : String) :
    run_belts_core fuel ns es srcs sink caps = some (.error msg) ↔
    build_edges (in_index ns) (out_index ns) es (base_graph ns caps) []
      (fun _ => 0) = .error msg := by
  unfold run_belts_core
  cases hb : build_edges (in_index ns) (out_index ns) es (base_graph ns caps)
      [] (fun _ => 0) with
  | error m => simp
  | ok triple =>
    obtain ⟨g2, em, dem0⟩ := triple
    dsimp only
    constructor
    · intro h
      split at h
      · exact absurd h (by simp)
      · split at h <;> simp_all
    · intro h; simp at h

/-- C3: `run_belts` reports status `"error"` exactly when the sink is
missing from the input or some edge has `hi + 1e-9 < lo`; and whenever the
error comes from an edge (sink present), the message names the offending
edge's endpoints.  The error result carries only the message, so no flows
or certificate accompany it, and the solve stage is never consulted for
the answer. -/
theorem run_belts_error_characterisation (fuel : Nat) (input : BeltInput)
    (r : Result) (h : run_belts fuel input = some r) :
    ((∃ msg, r = .error msg) ↔
      (input.sink = none ∨ ∃ e ∈ input.edges, e.hi + EPS < e.lo)) ∧
    (∀ msg, r = .error msg → input.sink ≠ none →
      ∃ e ∈ input.edges, e.hi + EPS < e.lo ∧
        msg = "edge hi < lo for " ++ e.src ++ "->" ++ e.dst) := by
  cases hs : input.sink with
  | none =>
    rw [run_belts, hs] at h
    have hr : r = .error "sink not specified" := (Option.some.inj h).symm
    refine ⟨⟨fun _ => Or.inl rfl, fun _ => ⟨_, hr⟩⟩, ?_⟩
    intro msg _ hne
    exact absurd rfl hne
  | some sink =>
    rw [run_belts, hs] at h
    have h' : run_belts_core fuel
        (sortUniq (input.nodes ++ input.edges.map (fun e => e.src) ++
          input.edges.map (fun e => e.dst) ++ input.sources.map Prod.fst ++
          [sink]))
        (List.insertionSort edge_key_le input.edges)
        input.sources sink input.node_caps = some r := h
    constructor
    · constructor
      · rintro ⟨msg, rfl⟩
        have hbe := (run_belts_core_error_iff fuel _ _ _ _ _ msg).mp h'
        obtain ⟨e, he, hbad, _⟩ := build_edges_error_spec _ _ _ _ _ _ _ hbe
        exact Or.inr ⟨e, (List.mem_insertionSort edge_key_le).mp he, hbad⟩
      · rintro (hnone | ⟨e, he, hbad⟩)
        · exact absurd hnone (by simp)
        · have he' : e ∈ List.insertionSort edge_key_le input.edges :=
            (List.mem_insertionSort edge_key_le).mpr he
          obtain ⟨msg, hmsg⟩ :=
            build_edges_error_exists (in_index _) (out_index _) _ _ _ _
              ⟨e, he', hbad⟩
          have hc := (run_belts_core_error_iff fuel _ _ input.sources sink
            input.node_caps msg).mpr hmsg
          exact ⟨msg, Option.some.inj (h'.symm.trans hc)⟩
    · intro msg hr _
      rw [hr] at h'
      have hbe := (run_belts_core_error_iff fuel _ _ _ _ _ msg).mp h'
      obtain ⟨e, he, hbad, hm⟩ := build_edges_error_spec _ _ _ _ _ _ _ hbe
      exact ⟨e, (List.mem_insertionSort edge_key_le).mp he, hbad, hm⟩

/-- Witness for C3 at a concrete input: one edge with `lo = 500 > 100 = hi`
and a present sink. -/
theorem run_belts_error_characterisation_witness :
    ((∃ msg, (Result.error "edge hi < lo for u->v") = .error msg) ↔
      ((⟨[], [⟨"u", "v", 500, 100⟩], [], some "t", []⟩ : BeltInput).sink = none ∨
        ∃ e ∈ (⟨[], [⟨"u", "v", 500, 100⟩], [], some "t", []⟩ : BeltInput).edges,
          e.hi + EPS < e.lo)) ∧
    (∀ msg, Result.error "edge hi < lo for u->v" = .error msg →
      (⟨[], [⟨"u", "v", 500, 100⟩], [], some "t", []⟩ : BeltInput).sink ≠ none →
      ∃ e ∈ (⟨[], [⟨"u", "v", 500, 100⟩], [], some "t", []⟩ : BeltInput).edges,
        e.hi + EPS < e.lo ∧
        msg = "edge hi < lo for " ++ e.src ++ "->" ++ e.dst) :=
  run_belts_error_characterisation 1 _ _ (by decide)

/-- The solver core's `ok` answers always carry `total_supply` as the
reported value. -/
lemma run_belts_core_ok_value (fuel : Nat) (ns : List String)
    (es : List EdgeIn) (srcs : List (String × ℚ)) (sink : String)
    (caps : List (String × ℚ)) (v : ℚ) (fl : List FlowRec)
    (h : run_belts_core fuel ns es srcs sink caps = some (.ok v fl)) :
    v = total_supply_of srcs := by
  unfold run_belts_core at h
  split at h
  · exact absurd h (by simp)
  · dsimp only at h
    split at h
    · exact absurd h (by simp)
    · split at h
      · exact absurd h (by simp)
      · rw [Option.some.injEq, Result.ok.injEq] at h
        exact h.1.symm

/-- C4: whenever `run_belts` answers `"ok"`, the reported
`max_flow_per_min` is the sum of the fixed supplies of the sources
mapping, independent of what the engine actually pushed. -/
theorem run_belts_ok_value (fuel : Nat) (input : BeltInput) (v : ℚ)
    (fl : List FlowRec) (h : run_belts fuel input = some (.ok v fl)) :
    v = total_supply_of input.sources := by
  cases hs : input.sink with
  | none => rw [run_belts, hs] at h; exact absurd (Option.some.inj h) (by simp)
  | some sink =>
    rw [run_belts, hs] at h
    exact run_belts_core_ok_value fuel _ _ _ _ _ v fl h

/-- Witness for C4 at a concrete input: the empty network with sink `t`
answers `ok` with value `0 = total_supply_of []`. -/
theorem run_belts_ok_value_witness :
    (0 : ℚ) = total_supply_of ([] : List (String × ℚ)) :=
  run_belts_ok_value 3 ⟨[], [], [], some "t", []⟩ 0 [] (by decide)

/-! ## Determinism under input reordering -/

/-- Identifiers with equal character data are equal. -/
lemma str_ext {a b : String} (h : a.data = b.data) : a = b := by
  cases a; cases b; exact congrArg String.mk h

instance : IsTotal String sLe := ⟨fun a b => le_total a.data b.data⟩

instance : IsTrans String sLe := ⟨fun _ _ _ hab hbc => le_trans hab hbc⟩

instance : IsAntisymm String sLe :=
  ⟨fun _ _ hab hba => str_ext (le_antisymm hab hba)⟩

instance : IsTotal EdgeIn edge_key_le := by
  refine ⟨fun a b => ?_⟩
  unfold edge_key_le sLt
  rcases lt_trichotomy a.src.data b.src.data with h1 | h1 | h1
  · exact Or.inl (Or.inl h1)
  · have hs : a.src = b.src := str_ext h1
    rcases lt_trichotomy a.dst.data b.dst.data with h2 | h2 | h2
    · exact Or.inl (Or.inr ⟨hs, Or.inl h2⟩)
    · have hd : a.dst = b.dst := str_ext h2
      rcases lt_trichotomy a.lo b.lo with h3 | h3 | h3
      · exact Or.inl (Or.inr ⟨hs, Or.inr ⟨hd, Or.inl h3⟩⟩)
      · rcases le_total a.hi b.hi with h4 | h4
        · exact Or.inl (Or.inr ⟨hs, Or.inr ⟨hd, Or.inr ⟨h3, h4⟩⟩⟩)
        · exact Or.inr (Or.inr ⟨hs.symm, Or.inr ⟨hd.symm, Or.inr ⟨h3.symm, h4⟩⟩⟩)
      · exact Or.inr (Or.inr ⟨hs.symm, Or.inr ⟨hd.symm, Or.inl h3⟩⟩)
    · exact Or.inr (Or.inr ⟨hs.symm, Or.inl h2⟩)
  · exact Or.inr (Or.inl h1)

instance : IsTrans EdgeIn edge_key_le := by
  refine ⟨fun a b c hab hbc => ?_⟩
  unfold edge_key_le sLt at *
  rcases hab with h1 | ⟨e1, hab⟩
  · rcases hbc with h2 | ⟨e2, _⟩
    · exact Or.inl (lt_trans h1 h2)
    · exact Or.inl (e2 ▸ h1)
  · rcases hbc with h2 | ⟨e2, hbc⟩
    · exact Or.inl (by rw [e1]; exact h2)
    · refine Or.inr ⟨e1.trans e2, ?_⟩
      rcases hab with h1 | ⟨f1, hab⟩
      · rcases hbc with h2 | ⟨f2, _⟩
        · exact Or.inl (lt_trans h1 h2)
        · exact Or.inl (f2 ▸ h1)
      · rcases hbc with h2 | ⟨f2, hbc⟩
        · exact Or.inl (by rw [f1]; exact h2)
        · refine Or.inr ⟨f1.trans f2, ?_⟩
          rcases hab with h1 | ⟨g1, hab⟩
          · rcases hbc with h2 | ⟨g2, _⟩
            · exact Or.inl (lt_trans h1 h2)
            · exact Or.inl (g2 ▸ h1)
          · rcases hbc with h2 | ⟨g2, hbc⟩
            · exact Or.inl (by rw [g1]; exact h2)
            · exact Or.inr ⟨g1.trans g2, le_trans hab hbc⟩

instance : IsAntisymm EdgeIn edge_key_le := by
  refine ⟨fun a b hab hba => ?_⟩
  cases a with | mk as ad al ah =>
  cases b with | mk bs bd bl bh =>
  unfold edge_key_le sLt at hab hba
  dsimp at hab hba
  rcases hab with h1 | ⟨e1, hab⟩
  · rcases hba with h1' | ⟨e1', _⟩
    · exact absurd h1' (lt_asymm h1)
    · exact absurd (e1' ▸ h1) (lt_irrefl _)
  · rcases hba with h1' | ⟨_, hba⟩
    · exact absurd (e1 ▸ h1') (lt_irrefl _)
    · cases e1
      rcases hab with h2 | ⟨e2, hab⟩
      · rcases hba with h2' | ⟨e2', _⟩
        · exact absurd h2' (lt_asymm h2)
        · exact absurd (e2' ▸ h2) (lt_irrefl _)
      · rcases hba with h2' | ⟨_, hba⟩
        · exact absurd (e2 ▸ h2') (lt_irrefl _)
        · cases e2
          rcases hab with h3 | ⟨e3, hab⟩
          · rcases hba with h3' | ⟨e3', _⟩
            · exact absurd h3' (lt_asymm h3)
            · exact absurd (e3' ▸ h3) (lt_irrefl _)
          · rcases hba with h3' | ⟨_, hba⟩
            · exact absurd (e3 ▸ h3') (lt_irrefl _)
            · cases e3
              rw [le_antisymm hab hba]

/-- Sorting the deduplicated node names depends only on which names occur,
not on their order. -/
lemma sortUniq_perm {l1 l2 : List String} (h : l1.Perm l2) :
    sortUniq l1 = sortUniq l2 := by
  unfold sortUniq
  exact List.eq_of_perm_of_sorted
    ((List.perm_insertionSort sLe _).trans
      (h.dedup.trans (List.perm_insertionSort sLe _).symm))
    (List.sorted_insertionSort sLe _) (List.sorted_insertionSort sLe _)

/-- The deterministic edge sort depends only on the multiset of edges. -/
lemma sortEdges_perm {l1 l2 : List EdgeIn} (h : l1.Perm l2) :
    List.insertionSort edge_key_le l1 = List.insertionSort edge_key_le l2 :=
  List.eq_of_perm_of_sorted
    ((List.perm_insertionSort edge_key_le _).trans
      (h.trans (List.perm_insertionSort edge_key_le _).symm))
    (List.sorted_insertionSort edge_key_le _)
    (List.sorted_insertionSort edge_key_le _)

/-- C6: permuting the `edges` and `nodes` lists of the input (same
elements, any order) leaves the whole result object of `run_belts`
unchanged — the node set is sorted before index assignment and the edge
list is sorted by `(from, to, lo, hi)` before insertion, so every later
stage sees identical data. -/
theorem run_belts_deterministic (fuel : Nat) (i1 i2 : BeltInput)
    (hn : i1.nodes.Perm i2.nodes) (he : i1.edges.Perm i2.edges)
    (hs : i1.sources = i2.sources) (hk : i1.sink = i2.sink)
    (hc : i1.node_caps = i2.node_caps) :
    run_belts fuel i1 = run_belts fuel i2 := by
  rw [run_belts, run_belts, hk, hs, hc]
  cases hsink : i2.sink with
  | none => rfl
  | some sink =>
    dsimp only
    have hcat : (i1.nodes ++ i1.edges.map (fun e => e.src) ++
        i1.edges.map (fun e => e.dst) ++ i2.sources.map Prod.fst ++
        [sink]).Perm
        (i2.nodes ++ i2.edges.map (fun e => e.src) ++
        i2.edges.map (fun e => e.dst) ++ i2.sources.map Prod.fst ++ [sink]) :=
      (((hn.append (he.map _)).append (he.map _)).append
        (List.Perm.refl _)).append (List.Perm.refl _)
    rw [sortUniq_perm hcat, sortEdges_perm he]

/-- Witness for C6 at concrete inputs: swapping both the node list and the
edge list yields the same result object. -/
theorem run_belts_deterministic_witness :
    run_belts 5 ⟨["n", "m"], [⟨"u", "v", 0, 1⟩, ⟨"u", "w", 0, 2⟩], [],
      some "t", []⟩ =
    run_belts 5 ⟨["m", "n"], [⟨"u", "w", 0, 2⟩, ⟨"u", "v", 0, 1⟩], [],
      some "t", []⟩ :=
  run_belts_deterministic 5 _ _ (List.Perm.swap "m" "n" [])
    (List.Perm.swap (⟨"u", "w", 0, 2⟩ : EdgeIn) (⟨"u", "v", 0, 1⟩ : EdgeIn) [])
    rfl rfl rfl

/-! ## List and graph surgery lemmas -/

lemma getD_set_self {α : Type} (l : List α) (i : Nat) (a d : α)
    (h : i < l.length) : (l.set i a).getD i d = a := by
  simp [List.getD_eq_getElem?_getD, List.getElem?_set_self h]

lemma getD_set_ne {α : Type} (l : List α) (i j : Nat) (a d : α)
    (h : i ≠ j) : (l.set i a).getD j d = l.getD j d := by
  simp [List.getD_eq_getElem?_getD, List.getElem?_set_ne h]

lemma getD_oob {α : Type} (l : List α) (j : Nat) (d : α)
    (h : l.length ≤ j) : l.getD j d = d := by
  simp [List.getD_eq_getElem?_getD, List.getElem?_eq_none h]

lemma set_oob {α : Type} : ∀ (l : List α) (i : Nat) (a : α),
    l.length ≤ i → l.set i a = l
  | [], _, _, _ => rfl
  | _ :: _, 0, _, h => by simp at h
  | x :: xs, i + 1, a, h => by
    simp only [List.set]
    rw [set_oob xs i a (by simpa using h)]

lemma set_getD_self {α : Type} : ∀ (l : List α) (i : Nat) (d : α),
    l.set i (l.getD i d) = l
  | [], _, _ => rfl
  | x :: xs, 0, d => rfl
  | x :: xs, i + 1, d => by
    simp only [List.getD_cons_succ, List.set]
    rw [set_getD_self xs i d]

lemma nV_set (g : Graph) (u : Nat) (l : List DEdge) :
    nV (List.set g u l) = nV g := by
  simp [nV, List.length_set]

lemma adjOf_set_self (g : Graph) (u : Nat) (l : List DEdge) (hu : u < nV g) :
    adjOf (List.set g u l) u = l :=
  getD_set_self g u l [] hu

lemma adjOf_set_ne (g : Graph) (u w : Nat) (l : List DEdge) (h : u ≠ w) :
    adjOf (List.set g u l) w = adjOf g w :=
  getD_set_ne g u w l [] h

lemma adjOf_oob (g : Graph) (u : Nat) (h : nV g ≤ u) : adjOf g u = [] :=
  getD_oob g u [] h

/-- A vertex with a nonempty adjacency list is in range. -/
lemma lt_nV_of_adj (g : Graph) (u : Nat) (h : (adjOf g u) ≠ []) :
    u < nV g := by
  by_contra hc
  exact h (adjOf_oob g u (Nat.le_of_not_lt hc))

lemma nV_setFlowAt (g : Graph) (u i : Nat) (q : ℚ) :
    nV (setFlowAt g u i q) = nV g := by
  unfold setFlowAt; exact nV_set g u _

lemma adjOf_setFlowAt_self (g : Graph) (u i : Nat) (q : ℚ) (hu : u < nV g) :
    adjOf (setFlowAt g u i q) u =
      (adjOf g u).set i { edgeAt g u i with flow := q } := by
  unfold setFlowAt
  exact adjOf_set_self g u _ hu

lemma adjOf_setFlowAt_ne (g : Graph) (u w i : Nat) (q : ℚ) (h : u ≠ w) :
    adjOf (setFlowAt g u i q) w = adjOf g w := by
  unfold setFlowAt
  exact adjOf_set_ne g u w _ h

lemma len_adjOf_setFlowAt (g : Graph) (u i : Nat) (q : ℚ) (w : Nat) :
    (adjOf (setFlowAt g u i q) w).length = (adjOf g w).length := by
  by_cases hu : u < nV g
  · by_cases hw : u = w
    · subst hw; rw [adjOf_setFlowAt_self g u i q hu, List.length_set]
    · rw [adjOf_setFlowAt_ne g u w i q hw]
  · unfold setFlowAt
    rw [set_oob g u _ (Nat.le_of_not_lt hu)]

lemma edgeAt_setFlowAt_self (g : Graph) (u i : Nat) (q : ℚ)
    (hu : u < nV g) (hi : i < (adjOf g u).length) :
    edgeAt (setFlowAt g u i q) u i = { edgeAt g u i with flow := q } := by
  unfold edgeAt
  rw [adjOf_setFlowAt_self g u i q hu]
  exact getD_set_self _ i _ dfltE hi

lemma edgeAt_setFlowAt_other (g : Graph) (u i w j : Nat) (q : ℚ)
    (h : w ≠ u ∨ j ≠ i) :
    edgeAt (setFlowAt g u i q) w j = edgeAt g w j := by
  by_cases hu : u < nV g
  · rcases h with hw | hj
    · unfold edgeAt
      rw [adjOf_setFlowAt_ne g u w i q (fun he => hw he.symm)]
    · by_cases hw : w = u
      · subst hw
        unfold edgeAt
        rw [adjOf_setFlowAt_self g w i q hu]
        exact getD_set_ne _ i j _ dfltE (fun he => hj he.symm)
      · unfold edgeAt
        rw [adjOf_setFlowAt_ne g u w i q (fun he => hw he.symm)]
  · unfold setFlowAt
    rw [set_oob g u _ (Nat.le_of_not_lt hu)]

lemma edgeAt_def (g : Graph) (u i : Nat) :
    edgeAt g u i = (adjOf g u).getD i dfltE := rfl

/-- Full description of `push_pair`: the slot gains `δ`, its paired slot
loses `δ`, everything else is untouched. -/
lemma push_pair_spec (g : Graph) (u i : Nat) (d : ℚ)
    (hu : u < nV g) (hi : i < (adjOf g u).length)
    (hne : (edgeAt g u i).toN ≠ u)
    (hTn : (edgeAt g u i).toN < nV g)
    (hRev : (edgeAt g u i).rev < (adjOf g (edgeAt g u i).toN).length) :
    nV (push_pair g u i d) = nV g ∧
    (∀ w, (adjOf (push_pair g u i d) w).length = (adjOf g w).length) ∧
    edgeAt (push_pair g u i d) u i =
      { edgeAt g u i with flow := (edgeAt g u i).flow + d } ∧
    edgeAt (push_pair g u i d) (edgeAt g u i).toN (edgeAt g u i).rev =
      { edgeAt g (edgeAt g u i).toN (edgeAt g u i).rev with
        flow := (edgeAt g (edgeAt g u i).toN (edgeAt g u i).rev).flow - d } ∧
    ∀ w j, (w ≠ u ∨ j ≠ i) →
      (w ≠ (edgeAt g u i).toN ∨ j ≠ (edgeAt g u i).rev) →
      edgeAt (push_pair g u i d) w j = edgeAt g w j := by
  unfold push_pair
  rw [← edgeAt_def]
  have hnV1 : nV (setFlowAt g u i ((edgeAt g u i).flow + d)) = nV g :=
    nV_setFlowAt g u i _
  have hpair1 : edgeAt (setFlowAt g u i ((edgeAt g u i).flow + d))
      (edgeAt g u i).toN (edgeAt g u i).rev =
      edgeAt g (edgeAt g u i).toN (edgeAt g u i).rev :=
    edgeAt_setFlowAt_other g u i _ _ _ (Or.inl hne)
  refine ⟨?_, ?_, ?_, ?_, ?_⟩
  · rw [nV_setFlowAt, nV_setFlowAt]
  · intro w
    rw [len_adjOf_setFlowAt, len_adjOf_setFlowAt]
  · rw [edgeAt_setFlowAt_other _ _ _ u i _
      (Or.inl (fun h => hne h.symm))]
    exact edgeAt_setFlowAt_self g u i _ hu hi
  · rw [edgeAt_setFlowAt_self _ _ _ _
      (by rw [hnV1]; exact hTn)
      (by rw [len_adjOf_setFlowAt]; exact hRev)]
    rw [hpair1, ← edgeAt_def, hpair1]
  · intro w j h1 h2
    rw [edgeAt_setFlowAt_other _ _ _ w j _ h2]
    exact edgeAt_setFlowAt_other g u i w j _ h1

lemma sameShape_refl (g : Graph) : sameShape g g :=
  ⟨rfl, fun _ => ⟨rfl, fun _ => ⟨rfl, rfl, rfl⟩⟩⟩

lemma sameShape_trans {g h k : Graph} (h1 : sameShape g h)
    (h2 : sameShape h k) : sameShape g k := by
  obtain ⟨hn1, hrest1⟩ := h1
  obtain ⟨hn2, hrest2⟩ := h2
  refine ⟨hn1.trans hn2, fun u => ?_⟩
  obtain ⟨hl1, he1⟩ := hrest1 u
  obtain ⟨hl2, he2⟩ := hrest2 u
  refine ⟨hl1.trans hl2, fun i => ?_⟩
  obtain ⟨a1, b1, c1⟩ := he1 i
  obtain ⟨a2, b2, c2⟩ := he2 i
  exact ⟨a1.trans a2, b1.trans b2, c1.trans c2⟩

/-- Since `pairWF` only mentions static fields, it transports along
`sameShape`. -/
lemma pairWF_transport {g h : Graph} (hs : sameShape g h) (hw : pairWF g) :
    pairWF h := by
  obtain ⟨hn, hrest⟩ := hs
  intro u i hu hi
  have hu' : u < nV g := by rw [hn]; exact hu
  have hi' : i < (adjOf g u).length := by rw [(hrest u).1]; exact hi
  obtain ⟨w1, w2, w3, w4⟩ := hw u i hu' hi'
  obtain ⟨ht, hr, hc⟩ := (hrest u).2 i
  have htg : (edgeAt h u i).toN = (edgeAt g u i).toN := ht.symm
  have hrg : (edgeAt h u i).rev = (edgeAt g u i).rev := hr.symm
  refine ⟨?_, ?_, ?_, ?_⟩
  · rw [htg, ← hn]; exact w1
  · rw [htg, hrg, ← (hrest (edgeAt g u i).toN).1]; exact w2
  · unfold pairAt
    rw [htg, hrg]
    have := ((hrest (edgeAt g u i).toN).2 (edgeAt g u i).rev).1
    rw [← this]
    exact w3
  · unfold pairAt
    rw [htg, hrg]
    have := ((hrest (edgeAt g u i).toN).2 (edgeAt g u i).rev).2.1
    rw [← this]
    exact w4

/-- A `push_pair` step under the admissible conditions keeps the shape. -/
lemma push_pair_sameShape (g : Graph) (u i : Nat) (d : ℚ)
    (hu : u < nV g) (hi : i < (adjOf g u).length)
    (hne : (edgeAt g u i).toN ≠ u)
    (hTn : (edgeAt g u i).toN < nV g)
    (hRev : (edgeAt g u i).rev < (adjOf g (edgeAt g u i).toN).length) :
    sameShape g (push_pair g u i d) := by
  obtain ⟨hnV, hlen, hfst, hsnd, hoth⟩ := push_pair_spec g u i d hu hi hne hTn hRev
  refine ⟨hnV.symm, fun w => ⟨(hlen w).symm, fun j => ?_⟩⟩
  by_cases h1 : w = u ∧ j = i
  · obtain ⟨rfl, rfl⟩ := h1
    rw [hfst]
    exact ⟨rfl, rfl, rfl⟩
  · by_cases h2 : w = (edgeAt g u i).toN ∧ j = (edgeAt g u i).rev
    · obtain ⟨rfl, rfl⟩ := h2
      rw [hsnd]
      exact ⟨rfl, rfl, rfl⟩
    · rw [hoth w j (by tauto) (by tauto)]
      exact ⟨rfl, rfl, rfl⟩

lemma DEdge_ext {a b : DEdge} (h1 : a.toN = b.toN) (h2 : a.rev = b.rev)
    (h3 : a.cap = b.cap) (h4 : a.flow = b.flow) : a = b := by
  cases a; cases b
  dsimp at h1 h2 h3 h4
  rw [h1, h2, h3, h4]

lemma EPS_pos : (0 : ℚ) < EPS := by norm_num [EPS]

/-- Only the pushed slot and its pair can change under `push_pair`. -/
lemma push_pair_changed (g : Graph) (u i : Nat) (d : ℚ)
    (hu : u < nV g) (hi : i < (adjOf g u).length)
    (hne : (edgeAt g u i).toN ≠ u)
    (hTn : (edgeAt g u i).toN < nV g)
    (hRev : (edgeAt g u i).rev < (adjOf g (edgeAt g u i).toN).length) :
    ∀ w j, edgeAt (push_pair g u i d) w j ≠ edgeAt g w j →
      (w = u ∧ j = i) ∨
      (w = (edgeAt g u i).toN ∧ j = (edgeAt g u i).rev) := by
  obtain ⟨_, _, _, _, hoth⟩ := push_pair_spec g u i d hu hi hne hTn hRev
  intro w j hch
  by_contra hc
  push_neg at hc
  obtain ⟨hc1, hc2⟩ := hc
  refine hch (hoth w j ?_ ?_)
  · by_cases hw : w = u
    · exact Or.inr (hc1 hw)
    · exact Or.inl hw
  · by_cases hw : w = (edgeAt g u i).toN
    · exact Or.inr (hc2 hw)
    · exact Or.inl hw

/-- If the paired slot of `(w, j)` is `(u, i)`, then `(w, j)` is the paired
slot of `(u, i)` (reverse handles form an involution under `pairWF`). -/
lemma pair_unique (g : Graph) (hw : pairWF g) (u i w j : Nat)
    (hwj : w < nV g) (hj : j < (adjOf g w).length)
    (ht : (edgeAt g w j).toN = u) (hr : (edgeAt g w j).rev = i) :
    w = (edgeAt g u i).toN ∧ j = (edgeAt g u i).rev := by
  obtain ⟨_, _, hb1, hb2⟩ := hw w j hwj hj
  unfold pairAt at hb1 hb2
  rw [ht, hr] at hb1 hb2
  exact ⟨hb1.symm, hb2.symm⟩

/-- A push within the residual bounds preserves the full invariant. -/
lemma graphInv_push_pair (g : Graph) (u i : Nat) (d : ℚ)
    (hg : graphInv g) (hu : u < nV g) (hi : i < (adjOf g u).length)
    (hne : (edgeAt g u i).toN ≠ u) (hd0 : 0 ≤ d)
    (hdc : d ≤ (edgeAt g u i).cap - (edgeAt g u i).flow) :
    graphInv (push_pair g u i d) := by
  obtain ⟨hwf, hfl⟩ := hg
  obtain ⟨hTn, hRev, hback1, hback2⟩ := hwf u i hu hi
  obtain ⟨hnV, hlen, hfst, hsnd, hoth⟩ :=
    push_pair_spec g u i d hu hi hne hTn hRev
  have hshape := push_pair_sameShape g u i d hu hi hne hTn hRev
  have hself : (edgeAt g u i).flow + (edgeAt g (edgeAt g u i).toN
      (edgeAt g u i).rev).flow = 0 := (hfl u i hu hi).1
  have hlow : -(edgeAt g (edgeAt g u i).toN (edgeAt g u i).rev).cap ≤
      (edgeAt g u i).flow := (hfl u i hu hi).2.1
  have hpcap : (edgeAt g (edgeAt g u i).toN (edgeAt g u i).rev).flow ≤
      (edgeAt g (edgeAt g u i).toN (edgeAt g u i).rev).cap := by
    have h2 := (hfl (edgeAt g u i).toN (edgeAt g u i).rev hTn hRev).2.2
    exact h2
  refine ⟨pairWF_transport hshape hwf, ?_⟩
  intro w j hw hj
  rw [hnV] at hw
  rw [hlen w] at hj
  by_cases h1 : w = u ∧ j = i
  · obtain ⟨rfl, rfl⟩ := h1
    unfold pairAt
    rw [hfst]
    dsimp only
    rw [hsnd]
    dsimp only
    refine ⟨by linarith, by linarith, by linarith⟩
  · by_cases h2 : w = (edgeAt g u i).toN ∧ j = (edgeAt g u i).rev
    · obtain ⟨rfl, rfl⟩ := h2
      have hb1' : (edgeAt g (edgeAt g u i).toN (edgeAt g u i).rev).toN = u :=
        hback1
      have hb2' : (edgeAt g (edgeAt g u i).toN (edgeAt g u i).rev).rev = i :=
        hback2
      unfold pairAt
      rw [hsnd]
      dsimp only
      rw [hb1', hb2', hfst]
      dsimp only
      refine ⟨by linarith, by linarith, by linarith⟩
    · have hothw : edgeAt (push_pair g u i d) w j = edgeAt g w j := by
        refine hoth w j ?_ ?_
        · by_contra hcc
          push_neg at hcc
          exact h1 ⟨hcc.1, hcc.2⟩
        · by_contra hcc
          push_neg at hcc
          exact h2 ⟨hcc.1, hcc.2⟩
      have hpw := hwf w j hw hj
      obtain ⟨hTw, hRw, _, _⟩ := hpw
      have hpair_other : edgeAt (push_pair g u i d) (edgeAt g w j).toN
          (edgeAt g w j).rev = edgeAt g (edgeAt g w j).toN (edgeAt g w j).rev := by
        refine hoth _ _ ?_ ?_
        · by_contra hcc
          push_neg at hcc
          obtain ⟨ht, hr⟩ := hcc
          obtain ⟨hb1, hb2⟩ := pair_unique g hwf u i w j hw hj ht hr
          exact h2 ⟨hb1, hb2⟩
        · by_contra hcc
          push_neg at hcc
          obtain ⟨ht, hr⟩ := hcc
          obtain ⟨hb1, hb2⟩ := pair_unique g hwf (edgeAt g u i).toN
            (edgeAt g u i).rev w j hw hj ht hr
          have hb1' : (edgeAt g (edgeAt g u i).toN (edgeAt g u i).rev).toN = u :=
            hback1
          have hb2' : (edgeAt g (edgeAt g u i).toN (edgeAt g u i).rev).rev = i :=
            hback2
          rw [hb1'] at hb1
          rw [hb2'] at hb2
          exact h1 ⟨hb1, hb2⟩
      unfold pairAt
      rw [hothw, hpair_other]
      exact hfl w j hw hj

/-- The blocking-flow DFS preserves the residual invariant and the graph
shape, never pushes more than asked, and only touches slots in levels at
or above its start vertex (forward edges into the next level, or their
pairs).  Proved by simultaneous induction on the fuel for `dfs_flow` and
`dfs_scan`. -/
lemma dfs_inv (fuel : Nat) :
    (∀ g t u pushed level it r g1 it1,
      dfs_flow fuel g t u pushed level it = some (r, g1, it1) →
      graphInv g →
      graphInv g1 ∧ sameShape g g1 ∧ (r = 0 ∨ r ≤ pushed) ∧
        ChangedOK g g1 level u) ∧
    (∀ g t u pushed level it i r g1 it1,
      dfs_scan fuel g t u pushed level it i = some (r, g1, it1) →
      graphInv g →
      graphInv g1 ∧ sameShape g g1 ∧ (r = 0 ∨ r ≤ pushed) ∧
        ChangedOK g g1 level u) := by
  induction fuel with
  | zero =>
    constructor
    · intro g t u pushed level it r g1 it1 h
      simp [dfs_flow] at h
    · intro g t u pushed level it i r g1 it1 h
      simp [dfs_scan] at h
  | succ fuel ih =>
    obtain ⟨ihf, ihs⟩ := ih
    constructor
    · intro g t u pushed level it r g1 it1 h hg
      rw [dfs_flow] at h
      split at h
      · simp only [Option.some.injEq, Prod.mk.injEq] at h
        obtain ⟨rfl, rfl, rfl⟩ := h
        exact ⟨hg, sameShape_refl g, Or.inr (le_refl _),
          fun x j _ _ hne2 => absurd rfl hne2⟩
      · exact ihs g t u pushed level it _ r g1 it1 h hg
    · intro g t u pushed level it i r g1 it1 h hg
      rw [dfs_scan] at h
      split at h
      · -- i < length: the let-bound edge, then the admissibility test
        dsimp only at h
        rename_i hlen
        split at h
        · -- admissible edge
          rename_i hcond
          have hres' : EPS < (edgeAt g u i).cap - (edgeAt g u i).flow :=
            hcond.1
          have hadm' : lvlD level (edgeAt g u i).toN = lvlD level u + 1 :=
            hcond.2
          have hu : u < nV g := lt_nV_of_adj g u (by
            intro hnil
            rw [hnil] at hlen
            simp at hlen)
          obtain ⟨hTn, hRev, hback1, hback2⟩ := hg.1 u i hu hlen
          have hlvlne : (edgeAt g u i).toN ≠ u := by
            intro hEq
            rw [hEq] at hadm'
            omega
          split at h
          · exact absurd h (by simp)
          · rename_i toPush gA itA heq
            have hrec := ihf g t (edgeAt g u i).toN
              (min pushed ((edgeAt g u i).cap - (edgeAt g u i).flow))
              level it toPush gA itA heq hg
            obtain ⟨hgA, hshapeA, hboundA, hchA⟩ := hrec
            have hnVA : nV gA = nV g := hshapeA.1.symm
            split at h
            · -- EPS < toPush: the push happens
              rename_i hEPS
              simp only [Option.some.injEq, Prod.mk.injEq] at h
              obtain ⟨rfl, rfl, rfl⟩ := h
              have hfl_ui : (edgeAt gA u i).flow = (edgeAt g u i).flow := by
                by_contra hc
                rcases hchA u i hu hlen hc with ⟨h1, _⟩ | ⟨h1, _⟩ <;> omega
              have hfl_pair : (edgeAt gA (edgeAt g u i).toN
                  (edgeAt g u i).rev).flow =
                  (edgeAt g (edgeAt g u i).toN (edgeAt g u i).rev).flow := by
                by_contra hc
                rcases hchA (edgeAt g u i).toN (edgeAt g u i).rev hTn hRev hc
                  with ⟨_, h2⟩ | ⟨h1, _⟩
                · have hb1' : (edgeAt g (edgeAt g u i).toN
                      (edgeAt g u i).rev).toN = u := hback1
                  rw [hb1'] at h2
                  omega
                · omega
              have hfieldsA := (hshapeA.2 u).2 i
              have hedge_ui : edgeAt gA u i = edgeAt g u i :=
                DEdge_ext hfieldsA.1.symm hfieldsA.2.1.symm
                  hfieldsA.2.2.symm hfl_ui
              have huA : u < nV gA := by rw [hnVA]; exact hu
              have hlenA : i < (adjOf gA u).length := by
                rw [← (hshapeA.2 u).1]; exact hlen
              have hneA : (edgeAt gA u i).toN ≠ u := by
                rw [hedge_ui]; exact hlvlne
              have hTnA : (edgeAt gA u i).toN < nV gA := by
                rw [hedge_ui, hnVA]; exact hTn
              have hRevA : (edgeAt gA u i).rev <
                  (adjOf gA (edgeAt gA u i).toN).length := by
                rw [hedge_ui, ← (hshapeA.2 (edgeAt g u i).toN).1]
                exact hRev
              have htp_pos : (0 : ℚ) ≤ toPush :=
                le_of_lt (lt_trans EPS_pos hEPS)
              have htp_le : toPush ≤ min pushed
                  ((edgeAt g u i).cap - (edgeAt g u i).flow) := by
                rcases hboundA with h0 | hle
                · rw [h0] at hEPS
                  exact absurd hEPS (lt_asymm EPS_pos)
                · exact hle
              have htp_cap : toPush ≤ (edgeAt gA u i).cap -
                  (edgeAt gA u i).flow := by
                rw [hedge_ui]
                exact le_trans htp_le (min_le_right _ _)
              have hfinal_inv : graphInv (push_pair gA u i toPush) :=
                graphInv_push_pair gA u i toPush hgA huA hlenA hneA
                  htp_pos htp_cap
              have hshapeP := push_pair_sameShape gA u i toPush huA hlenA
                hneA hTnA hRevA
              refine ⟨hfinal_inv, sameShape_trans hshapeA hshapeP,
                Or.inr (le_trans htp_le (min_le_left _ _)), ?_⟩
              intro x j hx hj hch
              have hxA : x < nV gA := by rw [hnVA]; exact hx
              have hjA : j < (adjOf gA x).length := by
                rw [← (hshapeA.2 x).1]; exact hj
              by_cases hc1 : (edgeAt gA x j).flow = (edgeAt g x j).flow
              · have hchP : edgeAt (push_pair gA u i toPush) x j ≠
                    edgeAt gA x j := by
                  intro hEq
                  exact hch (by rw [hEq, hc1])
                rcases push_pair_changed gA u i toPush huA hlenA hneA hTnA
                  hRevA x j hchP with ⟨rfl, rfl⟩ | ⟨hx2, hj2⟩
                · exact Or.inl ⟨le_refl _, hadm'⟩
                · rw [hedge_ui] at hx2 hj2
                  subst hx2
                  subst hj2
                  refine Or.inr ⟨by omega, ?_⟩
                  have hb1' : (edgeAt g (edgeAt g u i).toN
                      (edgeAt g u i).rev).toN = u := hback1
                  rw [hb1']
                  omega
              · rcases hchA x j hx hj hc1 with ⟨h1, h2⟩ | ⟨h1, h2⟩
                · exact Or.inl ⟨by omega, h2⟩
                · exact Or.inr ⟨by omega, h2⟩
            · -- toPush ≤ EPS: keep scanning on the recursion's graph
              have hscan := ihs gA t u pushed level (itA.set u (i + 1))
                (i + 1) r g1 it1 h hgA
              obtain ⟨hg1, hshapeB, hboundB, hchB⟩ := hscan
              refine ⟨hg1, sameShape_trans hshapeA hshapeB, hboundB, ?_⟩
              intro x j hx hj hch
              have hxA : x < nV gA := by rw [hnVA]; exact hx
              have hjA : j < (adjOf gA x).length := by
                rw [← (hshapeA.2 x).1]; exact hj
              by_cases hc1 : (edgeAt gA x j).flow = (edgeAt g x j).flow
              · have hchB' : (edgeAt g1 x j).flow ≠ (edgeAt gA x j).flow := by
                  rw [hc1]
                  exact hch
                have hfield : (edgeAt g x j).toN = (edgeAt gA x j).toN :=
                  ((hshapeA.2 x).2 j).1
                rcases hchB x j hxA hjA hchB' with ⟨h1, h2⟩ | ⟨h1, h2⟩
                · exact Or.inl ⟨h1, by rw [hfield]; exact h2⟩
                · exact Or.inr ⟨h1, by rw [hfield]; exact h2⟩
              · rcases hchA x j hx hj hc1 with ⟨h1, h2⟩ | ⟨h1, h2⟩
                · exact Or.inl ⟨by omega, h2⟩
                · exact Or.inr ⟨by omega, h2⟩
        · -- inadmissible edge: step the cursor
          exact ihs g t u pushed level (it.set u (i + 1)) (i + 1) r g1 it1
            h hg
      · -- i ≥ length: the scan is exhausted
        simp only [Option.some.injEq, Prod.mk.injEq] at h
        obtain ⟨rfl, rfl, rfl⟩ := h
        exact ⟨hg, sameShape_refl g, Or.inl rfl,
          fun x j _ _ hne2 => absurd rfl hne2⟩

/-- The inner blocking-flow loop preserves the residual invariant. -/
lemma mf_inner_inv : ∀ (fuel : Nat) (g : Graph) (s t : Nat) (limit : ℚ)
    (level : List Int) (it : List Nat) (flow fl : ℚ) (g1 : Graph)
    (stop : Bool), mf_inner fuel g s t limit level it flow =
      some (fl, g1, stop) → graphInv g → graphInv g1 := by
  intro fuel
  induction fuel with
  | zero =>
    intro g s t limit level it flow fl g1 stop h
    simp [mf_inner] at h
  | succ fuel ih =>
    intro g s t limit level it flow fl g1 stop h hg
    rw [mf_inner] at h
    split at h
    · exact absurd h (by simp)
    · rename_i pushed gA itA heq
      have hgA := ((dfs_inv fuel).1 g t s (limit - flow) level it pushed gA
        itA heq hg).1
      split at h
      · simp only [Option.some.injEq, Prod.mk.injEq] at h
        obtain ⟨rfl, rfl, rfl⟩ := h
        exact hgA
      · split at h
        · simp only [Option.some.injEq, Prod.mk.injEq] at h
          obtain ⟨rfl, rfl, rfl⟩ := h
          exact hgA
        · exact ih gA s t limit level itA (flow + pushed) fl g1 stop h hgA

/-- The outer level loop preserves the residual invariant. -/
lemma mf_outer_inv : ∀ (fuel : Nat) (g : Graph) (s t : Nat) (limit flow fl : ℚ)
    (g1 : Graph), mf_outer fuel g s t limit flow = some (fl, g1) →
    graphInv g → graphInv g1 := by
  intro fuel
  induction fuel with
  | zero =>
    intro g s t limit flow fl g1 h
    simp [mf_outer] at h
  | succ fuel ih =>
    intro g s t limit flow fl g1 h hg
    rw [mf_outer] at h
    split at h
    · simp only [Option.some.injEq, Prod.mk.injEq] at h
      obtain ⟨rfl, rfl⟩ := h
      exact hg
    · split at h
      · exact absurd h (by simp)
      · rename_i flow1 gA stop heq
        have hgA := mf_inner_inv fuel g s t limit (bfs_level g s)
          (List.replicate (nV g) 0) flow flow1 gA stop heq hg
        split at h
        · simp only [Option.some.injEq, Prod.mk.injEq] at h
          obtain ⟨rfl, rfl⟩ := h
          exact hgA
        · exact ih gA s t limit flow1 fl g1 h hgA

lemma getD_append_left {α : Type} (l l2 : List α) (j : Nat) (d : α)
    (h : j < l.length) : (l ++ l2).getD j d = l.getD j d := by
  simp [List.getD_eq_getElem?_getD, List.getElem?_append_left h]

lemma getD_append_length {α : Type} (l : List α) (x : α) (d : α) :
    (l ++ [x]).getD l.length d = x := by
  simp [List.getD_eq_getElem?_getD, List.getElem?_concat_length]

/-- The empty Dinic graph satisfies the invariant. -/
lemma graphInv_mkGraph (n : Nat) : graphInv (mkGraph n) := by
  have hadj : ∀ u, adjOf (mkGraph n) u = [] := by
    intro u
    unfold mkGraph adjOf
    simp [List.getD_eq_getElem?_getD, List.getElem?_replicate]
    split <;> rfl
  constructor <;>
    · intro u i _ hi
      rw [hadj u] at hi
      simp at hi

/-- Effect of `add_edge` on the adjacency structure (distinct endpoints). -/
lemma add_edge_spec (g : Graph) (u v : Nat) (c : ℚ) (hu : u < nV g)
    (hv : v < nV g) (huv : u ≠ v) :
    nV (add_edge g u v c) = nV g ∧
    adjOf (add_edge g u v c) u =
      adjOf g u ++ [⟨v, (adjOf g v).length, c, 0⟩] ∧
    adjOf (add_edge g u v c) v =
      adjOf g v ++ [⟨u, (adjOf g u).length, 0, 0⟩] ∧
    ∀ w, w ≠ u → w ≠ v → adjOf (add_edge g u v c) w = adjOf g w := by
  unfold add_edge
  dsimp only
  have h1 : adjOf (List.set g u (adjOf g u ++
      [⟨v, (adjOf g v).length, c, 0⟩])) v = adjOf g v :=
    adjOf_set_ne g u v _ huv
  refine ⟨?_, ?_, ?_, ?_⟩
  · rw [nV_set, nV_set]
  · rw [adjOf_set_ne _ v u _ (fun h => huv h.symm),
      adjOf_set_self g u _ hu]
  · rw [adjOf_set_self _ v _ (by rw [nV_set]; exact hv), h1]
  · intro w hwu hwv
    rw [adjOf_set_ne _ v w _ (fun h => hwv h.symm),
      adjOf_set_ne g u w _ (fun h => hwu h.symm)]

/-- Adding a non-negative-capacity edge between distinct vertices keeps
the residual invariant. -/
lemma graphInv_add_edge (g : Graph) (u v : Nat) (c : ℚ) (hu : u < nV g)
    (hv : v < nV g) (huv : u ≠ v) (hc : 0 ≤ c) (hg : graphInv g) :
    graphInv (add_edge g u v c) := by
  obtain ⟨hwf, hfl⟩ := hg
  obtain ⟨hnV, hadju, hadjv, hadjo⟩ := add_edge_spec g u v c hu hv huv
  have hlenu : (adjOf (add_edge g u v c) u).length =
      (adjOf g u).length + 1 := by rw [hadju]; simp
  have hlenv : (adjOf (add_edge g u v c) v).length =
      (adjOf g v).length + 1 := by rw [hadjv]; simp
  have hlen : ∀ w, (adjOf g w).length ≤
      (adjOf (add_edge g u v c) w).length := by
    intro w
    by_cases hwu : w = u
    · subst hwu; rw [hlenu]; omega
    · by_cases hwv : w = v
      · subst hwv; rw [hlenv]; omega
      · rw [hadjo w hwu hwv]
  have hold : ∀ w j, j < (adjOf g w).length →
      edgeAt (add_edge g u v c) w j = edgeAt g w j := by
    intro w j hj
    unfold edgeAt
    by_cases hwu : w = u
    · subst hwu; rw [hadju]; exact getD_append_left _ _ j dfltE hj
    · by_cases hwv : w = v
      · subst hwv; rw [hadjv]; exact getD_append_left _ _ j dfltE hj
      · rw [hadjo w hwu hwv]
  have hnew_a : edgeAt (add_edge g u v c) u (adjOf g u).length =
      ⟨v, (adjOf g v).length, c, 0⟩ := by
    unfold edgeAt; rw [hadju]; exact getD_append_length _ _ _
  have hnew_b : edgeAt (add_edge g u v c) v (adjOf g v).length =
      ⟨u, (adjOf g u).length, 0, 0⟩ := by
    unfold edgeAt; rw [hadjv]; exact getD_append_length _ _ _
  have hrange : ∀ w j, w < nV g → j < (adjOf (add_edge g u v c) w).length →
      (w = u ∧ j = (adjOf g u).length) ∨ (w = v ∧ j = (adjOf g v).length) ∨
      j < (adjOf g w).length := by
    intro w j _ hj
    by_cases hwu : w = u
    · subst hwu
      rw [hlenu] at hj
      rcases Nat.lt_succ_iff_lt_or_eq.mp hj with hj' | hj'
      · exact Or.inr (Or.inr hj')
      · exact Or.inl ⟨rfl, hj'⟩
    · by_cases hwv : w = v
      · subst hwv
        rw [hlenv] at hj
        rcases Nat.lt_succ_iff_lt_or_eq.mp hj with hj' | hj'
        · exact Or.inr (Or.inr hj')
        · exact Or.inr (Or.inl ⟨rfl, hj'⟩)
      · rw [hadjo w hwu hwv] at hj
        exact Or.inr (Or.inr hj)
  constructor
  · intro w j hw hj
    rw [hnV] at hw
    rcases hrange w j hw hj with ⟨rfl, rfl⟩ | ⟨rfl, rfl⟩ | hj'
    · unfold pairAt
      rw [hnew_a]
      dsimp only
      rw [hnew_b]
      exact ⟨by rw [hnV]; exact hv, by rw [hlenv]; omega, rfl, rfl⟩
    · unfold pairAt
      rw [hnew_b]
      dsimp only
      rw [hnew_a]
      exact ⟨by rw [hnV]; exact hu, by rw [hlenu]; omega, rfl, rfl⟩
    · obtain ⟨k1, k2, k3, k4⟩ := hwf w j hw hj'
      unfold pairAt
      rw [hold w j hj', hold _ _ k2]
      exact ⟨by rw [hnV]; exact k1, lt_of_lt_of_le k2 (hlen _), k3, k4⟩
  · intro w j hw hj
    rw [hnV] at hw
    rcases hrange w j hw hj with ⟨rfl, rfl⟩ | ⟨rfl, rfl⟩ | hj'
    · unfold pairAt
      rw [hnew_a]
      dsimp only
      rw [hnew_b]
      exact ⟨by norm_num, by norm_num, by norm_num [hc]⟩
    · unfold pairAt
      rw [hnew_b]
      dsimp only
      rw [hnew_a]
      refine ⟨by norm_num, by dsimp only; linarith, by norm_num⟩
    · obtain ⟨k1, k2, k3⟩ := hfl w j hw hj'
      have kr := (hwf w j hw hj').2.1
      unfold pairAt
      rw [hold w j hj', hold _ _ kr]
      unfold pairAt at k1 k2
      exact ⟨k1, k2, k3⟩

/-- The engine `max_flow` preserves the residual invariant. -/
lemma max_flow_inv (fuel : Nat) (g : Graph) (s t : Nat) (limit fl : ℚ)
    (g1 : Graph) (h : max_flow fuel g s t limit = some (fl, g1))
    (hg : graphInv g) : graphInv g1 :=
  mf_outer_inv fuel g s t limit 0 fl g1 h hg

/-- C9 (amended): capacities are fixed at construction, and the invariant
that actually holds at every point of the solve is the *pair* invariant:
paired flows cancel and every slot satisfies
`-cap(reverse e) ≤ flow e ≤ cap e` — so forward edges satisfy
`0 ≤ flow ≤ cap`, while their paired reverse edges (capacity `0`) carry
`flow ∈ [-cap(forward), 0]`, not `[0, cap]`.  The invariant holds for the
empty graph, is preserved by `add_edge` between distinct vertices with
non-negative capacity, and is preserved by every `max_flow` run. -/
theorem residual_pair_invariant :
    (∀ n, graphInv (mkGraph n)) ∧
    (∀ g u v c, u < nV g → v < nV g → u ≠ v → (0 : ℚ) ≤ c → graphInv g →
      graphInv (add_edge g u v c)) ∧
    (∀ fuel g s t limit fl g1, graphInv g →
      max_flow fuel g s t limit = some (fl, g1) → graphInv g1) :=
  ⟨graphInv_mkGraph,
    fun g u v c hu hv huv hc hg => graphInv_add_edge g u v c hu hv huv hc hg,
    fun fuel g s t limit fl g1 hg h =>
      max_flow_inv fuel g s t limit fl g1 h hg⟩

set_option maxHeartbeats 1600000 in
/-- Witness for C9 at a concrete graph: one capacity-5 edge, built by
`add_edge` and then saturated by `max_flow`, keeps the pair invariant. -/
theorem residual_pair_invariant_witness :
    (0 < nV (mkGraph 2) ∧ 1 < nV (mkGraph 2) ∧ (0 : Nat) ≠ 1 ∧
      (0 : ℚ) ≤ 5) ∧
    graphInv (add_edge (mkGraph 2) 0 1 5) ∧
    graphInv [[⟨1, 0, 5, 5⟩], [⟨0, 0, 0, -5⟩]] := by
  have h1 : graphInv (add_edge (mkGraph 2) 0 1 5) :=
    residual_pair_invariant.2.1 (mkGraph 2) 0 1 5 (by decide) (by decide)
      (by decide) (by decide) (residual_pair_invariant.1 2)
  refine ⟨⟨by decide, by decide, by decide, by decide⟩, h1, ?_⟩
  exact residual_pair_invariant.2.2 50 (add_edge (mkGraph 2) 0 1 5) 0 1 INF
    5 [[⟨1, 0, 5, 5⟩], [⟨0, 0, 0, -5⟩]] h1 (by decide)

/-- C10 (amended): an edge whose `hi` sits below `lo` by at most the
tolerance (`lo - 1e-9 ≤ hi < lo`) is accepted rather than rejected — as is
any edge with `¬(hi + 1e-9 < lo)` — and its residual edge is created with
capacity `max(0, hi - lo)`, which is `0` in the tolerance window; user-edge
residual capacities are therefore never negative.  (The internal node-cap
edges are a separate matter: a negative declared cap is copied unchecked,
see the counterexample.) -/
theorem build_edges_tolerance (inI outI : String → Nat) (ds : List EdgeIn)
    (g : Graph) (em : List ERec) (dem : String → ℚ)
    (h : ∀ e ∈ ds, ¬ (e.hi + EPS < e.lo)) :
    (∃ out, build_edges inI outI ds g em dem = .ok out) ∧
    (∀ e ∈ ds, 0 ≤ userCap e) ∧
    (∀ e ∈ ds, e.hi < e.lo → userCap e = 0) := by
  refine ⟨?_, fun e _ => le_max_left 0 _,
    fun e _ hlt => max_eq_left (by linarith)⟩
  clear* - h
  induction ds generalizing g em dem with
  | nil => exact ⟨_, rfl⟩
  | cons e rest ih =>
    have hbad := h e (List.mem_cons_self e rest)
    rw [build_edges, if_neg hbad]
    exact ih _ _ _ (fun e' he' => h e' (List.mem_cons_of_mem e he'))

/-- Witness for C10 at a concrete edge: `lo = 5`, `hi = 5 - EPS` (inside
the tolerance window) is accepted with a clamped zero capacity. -/
theorem build_edges_tolerance_witness :
    (∃ out, build_edges (fun _ => 0) (fun _ => 1)
      [⟨"u", "v", 5, 5 - EPS⟩] (mkGraph 2) [] (fun _ => 0) = .ok out) ∧
    (∀ e ∈ [(⟨"u", "v", 5, 5 - EPS⟩ : EdgeIn)], 0 ≤ userCap e) ∧
    (∀ e ∈ [(⟨"u", "v", 5, 5 - EPS⟩ : EdgeIn)], e.hi < e.lo →
      userCap e = 0) :=
  build_edges_tolerance (fun _ => 0) (fun _ => 1) _ (mkGraph 2) []
    (fun _ => 0) (by decide)

/-! ## Divergence of `max_flow` at a degenerate limit -/

lemma g8_eq : g8 = add_edge (mkGraph 2) 0 1 1 := by decide

/-- With `limit = 0` the DFS can only ever return `0` (the pushed budget
`min` s down to something `≤ EPS`, so the `to_push > EPS` test always
fails), leaving the graph untouched. -/
lemma c8_dfs (fuel : Nat) :
    (∀ (pushed : ℚ) (it : List Nat) (i : Nat), pushed ≤ EPS →
      dfs_scan fuel g8 1 0 pushed [0, 1] it i = none ∨
      ∃ it2, dfs_scan fuel g8 1 0 pushed [0, 1] it i = some (0, g8, it2)) ∧
    (∀ (pushed : ℚ) (it : List Nat), pushed ≤ EPS →
      dfs_flow fuel g8 1 0 pushed [0, 1] it = none ∨
      ∃ it2, dfs_flow fuel g8 1 0 pushed [0, 1] it = some (0, g8, it2)) := by
  induction fuel with
  | zero => exact ⟨fun _ _ _ _ => Or.inl rfl, fun _ _ _ => Or.inl rfl⟩
  | succ fuel ih =>
    obtain ⟨ihs, ihf⟩ := ih
    constructor
    · intro pushed it i hp
      rw [dfs_scan]
      by_cases hi : i < (adjOf g8 0).length
      · rw [if_pos hi]
        have hi0 : i = 0 := by
          have hlen1 : (adjOf g8 0).length = 1 := rfl
          omega
        subst hi0
        rw [show ((adjOf g8 0).getD 0 dfltE) = (⟨1, 0, 1, 0⟩ : DEdge)
          from rfl]
        dsimp only
        have hcond : EPS < ((1 : ℚ)) - 0 ∧
            ([0, 1] : List Int).getD 1 (-1) =
              ([0, 1] : List Int).getD 0 (-1) + 1 := by
          constructor
          · rw [EPS]; norm_num
          · decide
        rw [if_pos hcond]
        cases fuel with
        | zero => exact Or.inl rfl
        | succ f2 =>
          rw [dfs_flow, if_pos rfl]
          dsimp only
          have hmin : ¬ (EPS < min pushed ((1 : ℚ) - 0)) := by
            have : min pushed ((1 : ℚ) - 0) ≤ pushed := min_le_left _ _
            exact not_lt_of_le (le_trans this hp)
          rw [if_neg hmin]
          exact ihs pushed (it.set 0 (0 + 1)) (0 + 1) hp
      · rw [if_neg hi]
        exact Or.inr ⟨it, rfl⟩
    · intro pushed it hp
      rw [dfs_flow]
      rw [if_neg (by decide : ¬ ((0 : Nat) = 1))]
      exact ihs pushed it (it.getD 0 0) hp

/-- With `limit = 0` the blocking-flow inner loop makes no progress. -/
lemma c8_inner (fuel : Nat) (it : List Nat) :
    mf_inner fuel g8 0 1 0 [0, 1] it 0 = none ∨
    mf_inner fuel g8 0 1 0 [0, 1] it 0 = some (0, g8, false) := by
  cases fuel with
  | zero => exact Or.inl rfl
  | succ fuel =>
    rw [mf_inner]
    have hdfs := (c8_dfs fuel).2 ((0 : ℚ) - 0) it (by rw [EPS]; norm_num)
    rcases hdfs with hnone | ⟨it2, hsome⟩
    · rw [hnone]
      exact Or.inl rfl
    · rw [hsome]
      dsimp only
      rw [if_pos (by rw [EPS]; norm_num : (0 : ℚ) ≤ EPS)]
      exact Or.inr rfl

/-- With `limit = 0` the outer loop repeats forever on an unchanged
graph: every fuel value runs out. -/
lemma c8_outer (fuel : Nat) : mf_outer fuel g8 0 1 0 0 = none := by
  induction fuel with
  | zero => rfl
  | succ fuel ih =>
    rw [mf_outer]
    have hbfs : bfs_level g8 0 = [0, 1] := by decide
    rw [hbfs]
    rw [if_neg (by decide : ¬ (([0, 1] : List Int).getD 1 (-1) < 0))]
    have hrepl : List.replicate (nV g8) 0 = [0, 0] := rfl
    rcases c8_inner fuel (List.replicate (nV g8) 0) with hnone | hsome
    · rw [hnone]
    · rw [hsome]
      dsimp only
      exact ih

/-- C8: `Dinic.max_flow` does *not* terminate for every non-negative
limit: on the one-edge graph with `s = 0`, `t = 1` and `limit = 0`, every
outer round re-runs BFS on the unchanged graph (the sink stays levelled),
the DFS pushes nothing (`pushed = 0 ≤ EPS`), and the loop never exits —
no amount of fuel completes the run.  (In the repository `max_flow` is
only called with `limit = INF`.) -/
theorem max_flow_zero_limit_diverges :
    ¬ max_flow_terminates g8 0 1 0 ∧ g8 = add_edge (mkGraph 2) 0 1 1 := by
  refine ⟨?_, g8_eq⟩
  rintro ⟨fuel, hS⟩
  rw [max_flow] at hS
  rw [c8_outer fuel] at hS
  simp at hS

end Belts
